import Mathlib

/-!
Verification of the manifest-driven chunked pipeline of this repository:
parallel generation (`data_generation.py`), parquet-to-relational ingestion
with a row quota and an import ledger (`data_importer.py`, `rds_handler.py`),
and the object-store transfer path (`upload_aws.py`).

The embedding is shallow: each Python function of the pipeline core is
translated into an executable Lean definition over explicit state.
  * Rows are opaque payloads, modelled as `Nat`.
  * The relational sink is the list of rows it holds; `count_rows` is its
    length; `insert_many` appends, or fails (raising `SQLAlchemyError`),
    modelled by returning `none`.
  * A parquet file on disk is its name plus the outcome of `pd.read_parquet`
    (`none` models a raised exception) plus whether `insert_many` on its
    records succeeds; these oracles stand for the external world and are
    unchanged between runs.
  * The import ledger (`import_manifest.json`) is an association list keyed
    by file name, mirroring the insertion-ordered Python dict; timestamps
    are not modelled (no claim mentions them).
  * Log output is modelled as a trace of events so that claims about which
    files were skipped, truncated or inserted can be stated exactly.
-/

/-- A row of the employee table; the payload is opaque to the pipeline. -/
abbrev Row := Nat

/-- One entry of the import ledger `import_manifest.json`: the Python dict
value `{"file": ..., "rows_imported": ..., "timestamp": ...}` without the
timestamp, which no claim mentions. -/
structure LedgerEntry where
  file : String
  rows_imported : Nat
deriving DecidableEq, Repr

/-- Lookup of a file name in the ledger (Python dict access keyed by
`entry["file"]`), returning its `rows_imported`. -/
def ledgerLookup : List LedgerEntry → String → Option Nat
  | [], _ => none
  | e :: rest, n => if e.file = n then some e.rows_imported else ledgerLookup rest n

/-- `file_name in self.imported_files`: dict key membership. -/
def ledgerHas (L : List LedgerEntry) (n : String) : Bool :=
  (ledgerLookup L n).isSome

/-- `update_import_manifest` (data_importer.py:60-69): dict update keyed by
file name — replace in place when present, append when absent — followed by
rewriting the whole ledger file (the file write is modelled as the returned
ledger state). -/
def update_import_manifest : List LedgerEntry → String → Nat → List LedgerEntry
  | [], n, c => [⟨n, c⟩]
  | e :: rest, n, c =>
    if e.file = n then ⟨n, c⟩ :: rest else e :: update_import_manifest rest n c

/-- `load_import_manifest` (data_importer.py:48-58). The input models the
ledger file on disk: `none` = the file does not exist; `some none` = it
exists but `json.load` or the dict build raises (caught, warning logged);
`some (some es)` = it parses to the entry list `es`, from which the Python
dict comprehension builds a mapping keyed by `entry["file"]`. -/
def load_import_manifest (fileOnDisk : Option (Option (List LedgerEntry))) :
    List LedgerEntry :=
  match fileOnDisk with
  | some (some entries) =>
      entries.foldl (fun d e => update_import_manifest d e.file e.rows_imported) []
  | some none => []
  | none => []

/-- `insert_many` (rds_handler.py:103-117): an empty row list returns 0
without touching the session; otherwise `bulk_insert_mappings` + `commit`
appends the rows and returns their number, or raises `SQLAlchemyError`
after rollback (modelled by `none`; the sink is unchanged on failure).
`ok` is the oracle for whether the database accepts this call. -/
def insert_many (ok : Bool) (sink rows : List Row) : Option (Nat × List Row) :=
  if rows.isEmpty then some (0, sink)
  else if ok then some (rows.length, sink ++ rows)
  else none

/-- A parquet file in the input directory: its name, the outcome of
`pd.read_parquet` on it (`none` = the read raises), and whether
`insert_many` on its records succeeds. The two oracles model the external
world and do not change between runs over an unchanged directory. -/
structure PFile where
  name : String
  readResult : Option (List Row)
  insertOk : Bool
deriving DecidableEq, Repr

/-- Is `needle` a leading piece of `hay`? (character-list helper). -/
def listIsPref : List Char → List Char → Bool
  | [], _ => true
  | _ :: _, [] => false
  | a :: as, b :: bs => a = b && listIsPref as bs

/-- Does `hay` contain `needle` somewhere? (character-list helper). -/
def listHasSub (needle : List Char) : List Char → Bool
  | [] => listIsPref needle []
  | h :: t => listIsPref needle (h :: t) || listHasSub needle t

/-- Does string `s` end with `suf`? (used to model glob patterns). -/
def strEndsWith (s suf : String) : Bool :=
  listIsPref suf.data.reverse s.data.reverse

/-- The glob pattern `*.parquet` of `get_local_parquet_files`. -/
def parquetGlob (f : PFile) : Bool :=
  strEndsWith f.name ".parquet"

/-- Lexicographic order on character lists by code point: Python's string
comparison, used by `sorted()` on paths. -/
def charListLe : List Char → List Char → Bool
  | [], _ => true
  | _ :: _, [] => false
  | a :: as, b :: bs => if a = b then charListLe as bs else decide (a < b)

/-- The comparison `sorted()` applies to two paths of the input directory. -/
def pfileLe (a b : PFile) : Prop :=
  charListLe a.name.data b.name.data = true

instance : DecidableRel pfileLe := fun a b => by
  unfold pfileLe; infer_instance

/-- `get_local_parquet_files` (data_importer.py:72-80):
`sorted(self.input_dir.glob("*.parquet"))` — every file of the input
directory matching `*.parquet`, sorted ascending by path name. The
directory is modelled as the list of its files; the `FileNotFoundError`
for a missing directory is outside the model (the directory exists). -/
def get_local_parquet_files (dir : List PFile) : List PFile :=
  List.insertionSort pfileLe (dir.filter parquetGlob)

/-- The mutable state of one ingestion run: the relational sink's contents,
the import ledger, and `total_rows_inserted` of the current run. -/
structure ImportState where
  sink : List Row
  ledger : List LedgerEntry
  totalInserted : Nat
deriving DecidableEq, Repr

/-- Observable events of an ingestion run, standing for the log lines of
`import_to_rds`: the quota stop, a skip of an already-imported file, a skip
of an empty file, a `read_parquet` failure, a call to `insert_many` with
the exact (possibly truncated) rows handed to it, its success with the
returned count, and its failure. -/
inductive ImportEvent where
  | quotaStop
  | ledgerSkip (file : String)
  | emptySkip (file : String)
  | readError (file : String)
  | insertCall (file : String) (rows : List Row)
  | inserted (file : String) (count : Nat)
  | insertError (file : String)
deriving DecidableEq, Repr

/-- The `for file_path in parquet_files` loop of `import_to_rds`
(data_importer.py:96-136). `current` is `current_rows`, read once before
the loop and never updated inside it. Per iteration: quota break, ledger
skip, `read_parquet` (exception caught: log, continue), empty-file skip,
truncation of the chunk to `remaining = row_limit - (current_rows +
total_rows_inserted)` rows when it is longer, `insert_many` (exception
caught: log, continue, state unchanged), ledger update with the inserted
count, and the post-insert quota break. -/
def importLoop (limit current : Nat) :
    List PFile → ImportState → ImportState × List ImportEvent
  | [], st => (st, [])
  | f :: rest, st =>
    if limit ≤ current + st.totalInserted then
      (st, [.quotaStop])
    else if ledgerHas st.ledger f.name then
      let r := importLoop limit current rest st
      (r.1, .ledgerSkip f.name :: r.2)
    else
      match f.readResult with
      | none =>
        let r := importLoop limit current rest st
        (r.1, .readError f.name :: r.2)
      | some rows =>
        if rows.isEmpty then
          let r := importLoop limit current rest st
          (r.1, .emptySkip f.name :: r.2)
        else
          let remaining := limit - (current + st.totalInserted)
          let toInsert := if remaining < rows.length then rows.take remaining else rows
          match insert_many f.insertOk st.sink toInsert with
          | none =>
            let r := importLoop limit current rest st
            (r.1, .insertCall f.name toInsert :: .insertError f.name :: r.2)
          | some (cnt, sink') =>
            let st' : ImportState :=
              ⟨sink', update_import_manifest st.ledger f.name cnt, st.totalInserted + cnt⟩
            if limit ≤ current + st'.totalInserted then
              (st', [.insertCall f.name toInsert, .inserted f.name cnt, .quotaStop])
            else
              let r := importLoop limit current rest st'
              (r.1, .insertCall f.name toInsert :: .inserted f.name cnt :: r.2)

/-- `import_to_rds` (data_importer.py:82-142): read `current_rows =
count_rows()` (the sink's length); return at once when it already meets
`row_limit`; otherwise run the import loop over the sorted parquet files
of the directory, starting from `total_rows_inserted = 0`.
(`create_table_if_not_exists` has no effect in the model.) -/
def import_to_rds (limit : Nat) (dir : List PFile)
    (sink : List Row) (ledger : List LedgerEntry) :
    ImportState × List ImportEvent :=
  let current := sink.length
  if limit ≤ current then (⟨sink, ledger, 0⟩, [])
  else importLoop limit current (get_local_parquet_files dir) ⟨sink, ledger, 0⟩

/-- The partition loop of `generate_data_parallel` (data_generation.py:56-68):
`base` is `total_rows // num_cores`, `rem` is `total_rows % num_cores`; the
loop index `i` runs over the workers, `s` is the running `start_id`, and `k`
counts the workers still to plan. Each planned chunk is the pair
`(start_id, rows_in_chunk)` handed to `_generate_chunk`. -/
def build_chunks (base rem : Nat) : Nat → Nat → Nat → List (Nat × Nat)
  | _, _, 0 => []
  | i, s, k + 1 =>
    let rows := base + (if i < rem then 1 else 0)
    (s, rows) :: build_chunks base rem (i + 1) (s + rows) k

/-- The partition plan computed by `generate_data_parallel`
(data_generation.py:56-68): one `(start_id, rows_in_chunk)` pair per CPU
core, with `start_id` beginning at 1. -/
def generate_data_parallel_plan (total_rows num_cores : Nat) : List (Nat × Nat) :=
  build_chunks (total_rows / num_cores) (total_rows % num_cores) 0 1 num_cores

/-- A file of a directory as seen by the manifest resolver: name and
modification time (`st_mtime`). -/
structure DirFile where
  name : String
  mtime : Nat
deriving DecidableEq, Repr

/-- The comparison `sorted(..., key=lambda f: f.stat().st_mtime)` applies. -/
def mtimeLe (a b : DirFile) : Prop :=
  a.mtime ≤ b.mtime

instance : DecidableRel mtimeLe := fun a b => by
  unfold mtimeLe; infer_instance

/-- The glob pattern `*manifest_*.json` of `get_latest_manifest`: the name
decomposes as `a ++ "manifest_" ++ b ++ ".json"`, i.e. it ends in `.json`
and contains `manifest_` before that suffix. -/
def manifestGlob (s : String) : Bool :=
  strEndsWith s ".json" && listHasSub "manifest_".data (s.data.take (s.data.length - 5))

/-- `get_latest_manifest` (upload_aws.py:53-61): glob `*manifest_*.json` in
the output directory, sort ascending by modification time, take the last;
`none` models the raised `FileNotFoundError` (the spec's `ManifestNotFound`)
when nothing matches. -/
def get_latest_manifest (output_dir : List DirFile) : Option DirFile :=
  (List.insertionSort mtimeLe (output_dir.filter fun f => manifestGlob f.name)).getLast?

/-- One entry of the parquet-stage manifest consumed by the uploader
(upload_aws.py:71-72): the fields it reads. `size_mb` is informational and
only copied through (the source stores a rounded float; the numeric type is
irrelevant to every claim, so it is carried as a `Nat`). -/
structure SManifestEntry where
  parquet_file : String
  rows : Nat
  size_mb : Nat
deriving DecidableEq, Repr

/-- One entry of the transfer (upload) log written by
`upload_file_from_manifest` (upload_aws.py:82-88), without the wall-clock
`uploaded_at` timestamp. -/
structure UploadLogEntry where
  file : String
  s3_key : String
  rows : Nat
  size_mb : Nat
deriving DecidableEq, Repr

/-- `str.lstrip("/")`: drop every leading slash. -/
def lstripSlash : List Char → List Char
  | '/' :: rest => lstripSlash rest
  | l => l

/-- The S3 key built for a file (upload_aws.py:77):
`f"{self.s3_prefix}/{file_path.name}".lstrip("/")`. -/
def makeS3Key (pre name : String) : String :=
  String.mk (lstripSlash (pre ++ "/" ++ name).data)

/-- The per-entry loop of `upload_file_from_manifest` (upload_aws.py:64-91):
for each manifest entry, skip it with a warning when the local file is
absent (`onDisk` false); otherwise attempt the upload — on success append a
transfer-log entry, on a raised error log and continue. `onDisk` and
`uploadOk` are the oracles for the filesystem and the object store. The
trailing manifest self-upload and the log file write (lines 93-107) produce
no log entries and are outside the returned value. -/
def upload_file_from_manifest (pre : String) (onDisk uploadOk : String → Bool) :
    List SManifestEntry → List UploadLogEntry
  | [] => []
  | e :: rest =>
    if onDisk e.parquet_file = false then
      upload_file_from_manifest pre onDisk uploadOk rest
    else if uploadOk e.parquet_file then
      ⟨e.parquet_file, makeS3Key pre e.parquet_file, e.rows, e.size_mb⟩
        :: upload_file_from_manifest pre onDisk uploadOk rest
    else
      upload_file_from_manifest pre onDisk uploadOk rest

/-! ### Helper lemmas about the sink and the ledger -/

theorem insert_many_some (ok : Bool) (s r : List Row) (c : Nat) (s' : List Row)
    (h : insert_many ok s r = some (c, s')) :
    (r = [] ∧ c = 0 ∧ s' = s) ∨ (ok = true ∧ r ≠ [] ∧ c = r.length ∧ s' = s ++ r) := by
  unfold insert_many at h
  by_cases he : r.isEmpty
  · left
    rw [if_pos he] at h
    obtain ⟨h1, h2⟩ := Prod.mk.injEq .. ▸ Option.some.injEq .. ▸ h
    exact ⟨List.isEmpty_iff.mp he, h1.symm, h2.symm⟩
  · right
    rw [if_neg he] at h
    by_cases ho : ok
    · rw [if_pos ho] at h
      obtain ⟨h1, h2⟩ := Prod.mk.injEq .. ▸ Option.some.injEq .. ▸ h
      exact ⟨ho, fun hr => he (by simp [hr]), h1.symm, h2.symm⟩
    · rw [if_neg ho] at h
      exact absurd h (by simp)

theorem insert_many_none (ok : Bool) (s r : List Row)
    (h : insert_many ok s r = none) : ok = false ∧ r ≠ [] := by
  unfold insert_many at h
  by_cases he : r.isEmpty
  · rw [if_pos he] at h; exact absurd h (by simp)
  · rw [if_neg he] at h
    by_cases ho : ok
    · rw [if_pos ho] at h; exact absurd h (by simp)
    · exact ⟨by simp [ho], fun hr => he (by simp [hr])⟩

theorem ledgerLookup_update_self (L : List LedgerEntry) (n : String) (c : Nat) :
    ledgerLookup (update_import_manifest L n c) n = some c := by
  induction L with
  | nil => simp [update_import_manifest, ledgerLookup]
  | cons e rest ih =>
    by_cases h : e.file = n
    · simp [update_import_manifest, h, ledgerLookup]
    · simp [update_import_manifest, h, ledgerLookup, ih]

theorem ledgerLookup_update_other (L : List LedgerEntry) (n : String) (c : Nat)
    (m : String) (h : m ≠ n) :
    ledgerLookup (update_import_manifest L n c) m = ledgerLookup L m := by
  induction L with
  | nil => simp [update_import_manifest, ledgerLookup, Ne.symm h]
  | cons e rest ih =>
    by_cases he : e.file = n
    · simp only [update_import_manifest, if_pos he, ledgerLookup]
      rw [if_neg (fun hc : n = m => h hc.symm), if_neg (fun hc : e.file = m => h (he ▸ hc).symm)]
    · simp only [update_import_manifest, if_neg he, ledgerLookup]
      by_cases hm : e.file = m
      · rw [if_pos hm, if_pos hm]
      · rw [if_neg hm, if_neg hm, ih]

theorem ledgerHas_update_self (L : List LedgerEntry) (n : String) (c : Nat) :
    ledgerHas (update_import_manifest L n c) n = true := by
  simp [ledgerHas, ledgerLookup_update_self]

theorem ledgerHas_update_mono (L : List LedgerEntry) (n : String) (c : Nat)
    (m : String) (h : ledgerHas L m = true) :
    ledgerHas (update_import_manifest L n c) m = true := by
  by_cases hm : m = n
  · subst hm; exact ledgerHas_update_self L m c
  · simpa [ledgerHas, ledgerLookup_update_other L n c m hm] using h

theorem ledgerHas_false_ne (L : List LedgerEntry) (m n : String)
    (hm : ledgerHas L m = true) (hn : ledgerHas L n = false) : m ≠ n := by
  intro h; rw [h] at hm; rw [hm] at hn; cases hn


/-! ### Invariants of the ingestion loop -/

theorem importLoop_total_le (limit current : Nat) (files : List PFile) :
    ∀ st : ImportState, current + st.totalInserted ≤ limit →
      current + (importLoop limit current files st).1.totalInserted ≤ limit := by
  induction files with
  | nil => intro st h; simpa [importLoop] using h
  | cons f rest ih =>
    intro st h
    simp only [importLoop]
    by_cases hq : limit ≤ current + st.totalInserted
    · rw [if_pos hq]; exact h
    rw [if_neg hq]
    by_cases hl : ledgerHas st.ledger f.name
    · rw [if_pos hl]; exact ih st h
    rw [if_neg hl]
    rcases hrd : f.readResult with _ | rows
    · exact ih st h
    dsimp only
    by_cases he : rows.isEmpty
    · rw [if_pos he]; exact ih st h
    rw [if_neg he]
    rcases hins : insert_many f.insertOk st.sink
        (if limit - (current + st.totalInserted) < rows.length
         then rows.take (limit - (current + st.totalInserted)) else rows) with _ | ⟨cnt, sink'⟩
    · exact ih st h
    dsimp only
    have hcnt : cnt ≤ limit - (current + st.totalInserted) := by
      rcases insert_many_some _ _ _ _ _ hins with ⟨-, rfl, -⟩ | ⟨-, -, hc, -⟩
      · omega
      · rw [hc]
        split
        · rw [List.length_take]; omega
        · omega
    by_cases hq2 : limit ≤ current + (st.totalInserted + cnt)
    · rw [if_pos hq2]; simp only; omega
    · rw [if_neg hq2]; exact ih _ (by simp only; omega)


theorem importLoop_sink_length (limit current : Nat) (files : List PFile) :
    ∀ st : ImportState, st.sink.length = current + st.totalInserted →
      (importLoop limit current files st).1.sink.length
        = current + (importLoop limit current files st).1.totalInserted := by
  induction files with
  | nil => intro st h; simpa [importLoop] using h
  | cons f rest ih =>
    intro st h
    simp only [importLoop]
    by_cases hq : limit ≤ current + st.totalInserted
    · rw [if_pos hq]; exact h
    rw [if_neg hq]
    by_cases hl : ledgerHas st.ledger f.name
    · rw [if_pos hl]; exact ih st h
    rw [if_neg hl]
    rcases hrd : f.readResult with _ | rows
    · exact ih st h
    dsimp only
    by_cases he : rows.isEmpty
    · rw [if_pos he]; exact ih st h
    rw [if_neg he]
    rcases hins : insert_many f.insertOk st.sink
        (if limit - (current + st.totalInserted) < rows.length
         then rows.take (limit - (current + st.totalInserted)) else rows) with _ | ⟨cnt, sink'⟩
    · exact ih st h
    dsimp only
    have hlen : sink'.length = current + (st.totalInserted + cnt) := by
      rcases insert_many_some _ _ _ _ _ hins with ⟨-, rfl, rfl⟩ | ⟨-, -, hc, rfl⟩
      · omega
      · rw [List.length_append]; omega
    by_cases hq2 : limit ≤ current + (st.totalInserted + cnt)
    · rw [if_pos hq2]; exact hlen
    · rw [if_neg hq2]; exact ih _ hlen

theorem importLoop_lookup_mono (limit current : Nat) (files : List PFile) :
    ∀ (st : ImportState) (n : String) (c : Nat),
      ledgerLookup st.ledger n = some c →
      ledgerLookup (importLoop limit current files st).1.ledger n = some c := by
  induction files with
  | nil => intro st n c h; simpa [importLoop] using h
  | cons f rest ih =>
    intro st n c h
    simp only [importLoop]
    by_cases hq : limit ≤ current + st.totalInserted
    · rw [if_pos hq]; exact h
    rw [if_neg hq]
    by_cases hl : ledgerHas st.ledger f.name
    · rw [if_pos hl]; exact ih st n c h
    rw [if_neg hl]
    rcases hrd : f.readResult with _ | rows
    · exact ih st n c h
    dsimp only
    by_cases he : rows.isEmpty
    · rw [if_pos he]; exact ih st n c h
    rw [if_neg he]
    rcases hins : insert_many f.insertOk st.sink
        (if limit - (current + st.totalInserted) < rows.length
         then rows.take (limit - (current + st.totalInserted)) else rows) with _ | ⟨cnt, sink'⟩
    · exact ih st n c h
    dsimp only
    have hne : f.name ≠ n := by
      intro hfn
      have hhas : ledgerHas st.ledger n = true := by simp [ledgerHas, h]
      rw [hfn] at hl
      exact hl hhas
    have hpres : ledgerLookup (update_import_manifest st.ledger f.name cnt) n = some c := by
      rw [ledgerLookup_update_other _ _ _ _ (Ne.symm hne)]; exact h
    by_cases hq2 : limit ≤ current + (st.totalInserted + cnt)
    · rw [if_pos hq2]; exact hpres
    · rw [if_neg hq2]; exact ih _ n c hpres

theorem importLoop_has_mono (limit current : Nat) (files : List PFile)
    (st : ImportState) (n : String) (h : ledgerHas st.ledger n = true) :
    ledgerHas (importLoop limit current files st).1.ledger n = true := by
  rcases Option.isSome_iff_exists.mp (by simpa [ledgerHas] using h) with ⟨c, hc⟩
  have hm := importLoop_lookup_mono limit current files st n c hc
  simp [ledgerHas, hm]


theorem importLoop_no_insert_of_ledgered (limit current : Nat) (files : List PFile) :
    ∀ (st : ImportState) (n : String), ledgerHas st.ledger n = true →
      ∀ rs : List Row,
        ImportEvent.insertCall n rs ∉ (importLoop limit current files st).2 := by
  induction files with
  | nil => intro st n h rs; simp [importLoop]
  | cons f rest ih =>
    intro st n h rs
    simp only [importLoop]
    by_cases hq : limit ≤ current + st.totalInserted
    · rw [if_pos hq]; simp
    rw [if_neg hq]
    by_cases hl : ledgerHas st.ledger f.name
    · rw [if_pos hl]
      intro hmem
      rcases List.mem_cons.mp hmem with hc | hc
      · cases hc
      · exact ih st n h rs hc
    rw [if_neg hl]
    have hne : n ≠ f.name := ledgerHas_false_ne st.ledger n f.name h (by simpa using hl)
    rcases hrd : f.readResult with _ | rows
    · intro hmem
      rcases List.mem_cons.mp hmem with hc | hc
      · cases hc
      · exact ih st n h rs hc
    dsimp only
    by_cases he : rows.isEmpty
    · rw [if_pos he]
      intro hmem
      rcases List.mem_cons.mp hmem with hc | hc
      · cases hc
      · exact ih st n h rs hc
    rw [if_neg he]
    rcases hins : insert_many f.insertOk st.sink
        (if limit - (current + st.totalInserted) < rows.length
         then rows.take (limit - (current + st.totalInserted)) else rows) with _ | ⟨cnt, sink'⟩
    · intro hmem
      rcases List.mem_cons.mp hmem with hc | hc
      · injection hc with h1 h2; exact hne h1
      rcases List.mem_cons.mp hc with hc2 | hc2
      · cases hc2
      · exact ih st n h rs hc2
    dsimp only
    by_cases hq2 : limit ≤ current + (st.totalInserted + cnt)
    · rw [if_pos hq2]
      intro hmem
      rcases List.mem_cons.mp hmem with hc | hc
      · injection hc with h1 h2; exact hne h1
      rcases List.mem_cons.mp hc with hc2 | hc2
      · cases hc2
      rcases List.mem_cons.mp hc2 with hc3 | hc3
      · cases hc3
      · cases hc3
    · rw [if_neg hq2]
      intro hmem
      rcases List.mem_cons.mp hmem with hc | hc
      · injection hc with h1 h2; exact hne h1
      rcases List.mem_cons.mp hc with hc2 | hc2
      · cases hc2
      · exact ih _ n (ledgerHas_update_mono st.ledger f.name cnt n h) rs hc2

theorem importLoop_post (limit current : Nat) (files : List PFile) :
    ∀ st : ImportState, ∀ f ∈ files,
      ledgerHas (importLoop limit current files st).1.ledger f.name = true
      ∨ f.readResult = none
      ∨ f.readResult = some ([] : List Row)
      ∨ f.insertOk = false
      ∨ limit ≤ current + (importLoop limit current files st).1.totalInserted := by
  induction files with
  | nil => intro st f hf; cases hf
  | cons g rest ih =>
    intro st f hf
    simp only [importLoop]
    by_cases hq : limit ≤ current + st.totalInserted
    · rw [if_pos hq]
      right; right; right; right; exact hq
    rw [if_neg hq]
    rcases List.mem_cons.mp hf with rfl | hf'
    · by_cases hl : ledgerHas st.ledger f.name
      · rw [if_pos hl]
        left; exact importLoop_has_mono limit current rest st f.name hl
      rw [if_neg hl]
      rcases hrd : f.readResult with _ | rows
      · right; left; rfl
      dsimp only
      by_cases he : rows.isEmpty
      · rw [if_pos he]
        right; right; left; rw [List.isEmpty_iff.mp he]
      rw [if_neg he]
      rcases hins : insert_many f.insertOk st.sink
          (if limit - (current + st.totalInserted) < rows.length
         then rows.take (limit - (current + st.totalInserted)) else rows) with _ | ⟨cnt, sink'⟩
      · right; right; right; left; exact (insert_many_none _ _ _ hins).1
      dsimp only
      by_cases hq2 : limit ≤ current + (st.totalInserted + cnt)
      · rw [if_pos hq2]
        left; exact ledgerHas_update_self st.ledger f.name cnt
      · rw [if_neg hq2]
        left
        exact importLoop_has_mono limit current rest _ f.name
          (ledgerHas_update_self st.ledger f.name cnt)
    · by_cases hl : ledgerHas st.ledger g.name
      · rw [if_pos hl]; exact ih st f hf'
      rw [if_neg hl]
      rcases hrd : g.readResult with _ | rows
      · exact ih st f hf'
      dsimp only
      by_cases he : rows.isEmpty
      · rw [if_pos he]; exact ih st f hf'
      rw [if_neg he]
      rcases hins : insert_many g.insertOk st.sink
          (if limit - (current + st.totalInserted) < rows.length
         then rows.take (limit - (current + st.totalInserted)) else rows) with _ | ⟨cnt, sink'⟩
      · exact ih st f hf'
      dsimp only
      by_cases hq2 : limit ≤ current + (st.totalInserted + cnt)
      · rw [if_pos hq2]
        right; right; right; right; exact hq2
      · rw [if_neg hq2]; exact ih _ f hf'

theorem importLoop_skip_all (limit current : Nat) (files : List PFile) :
    ∀ st : ImportState,
      (∀ f ∈ files, ledgerHas st.ledger f.name = true ∨ f.readResult = none
        ∨ f.readResult = some ([] : List Row) ∨ f.insertOk = false) →
      (importLoop limit current files st).1 = st := by
  induction files with
  | nil => intro st _; rfl
  | cons f rest ih =>
    intro st h
    have hrest : ∀ g ∈ rest, ledgerHas st.ledger g.name = true ∨ g.readResult = none
        ∨ g.readResult = some ([] : List Row) ∨ g.insertOk = false :=
      fun g hg => h g (List.mem_cons_of_mem f hg)
    have hf := h f (List.mem_cons_self f rest)
    simp only [importLoop]
    by_cases hq : limit ≤ current + st.totalInserted
    · rw [if_pos hq]
    rw [if_neg hq]
    by_cases hl : ledgerHas st.ledger f.name
    · rw [if_pos hl]; exact ih st hrest
    rw [if_neg hl]
    rcases hrd : f.readResult with _ | rows
    · exact ih st hrest
    dsimp only
    by_cases he : rows.isEmpty
    · rw [if_pos he]; exact ih st hrest
    rw [if_neg he]
    have hok : f.insertOk = false := by
      rcases hf with h1 | h1 | h1 | h1
      · exact absurd h1 hl
      · rw [h1] at hrd; cases hrd
      · rw [h1] at hrd
        injection hrd with h2
        rw [← h2] at he
        exact absurd rfl he
      · exact h1
    have hlen : 0 < rows.length := by
      cases rows with
      | nil => exact absurd rfl he
      | cons a l => simp
    rcases hins : insert_many f.insertOk st.sink
        (if limit - (current + st.totalInserted) < rows.length
         then rows.take (limit - (current + st.totalInserted)) else rows) with _ | ⟨cnt, sink'⟩
    · exact ih st hrest
    · exfalso
      rcases insert_many_some _ _ _ _ _ hins with ⟨ht, -, -⟩ | ⟨hok2, -, -, -⟩
      · have hrem : 0 < limit - (current + st.totalInserted) := by omega
        revert ht
        split
        · intro ht
          have hlt := congrArg List.length ht
          rw [List.length_take] at hlt
          simp only [List.length_nil] at hlt
          omega
        · intro ht
          rw [ht] at hlen
          simp at hlen
      · rw [hok] at hok2; cases hok2


/-! ### Claim theorems -/

/-- Claim C1 (quota invariant): for every starting sink row count below the
quota and every directory of parquet chunk files, after `import_to_rds`
completes the relational sink holds at most `row_limit` rows, assuming
`insert_many` returns the number of rows it was given (every file's insert
succeeds). There are no concurrent external writers in the model: the sink
changes only through `insert_many`. -/
theorem import_to_rds_quota_invariant (limit : Nat) (dir : List PFile)
    (sink : List Row) (ledger : List LedgerEntry)
    (hstart : sink.length < limit)
    (_hok : ∀ f ∈ dir, f.insertOk = true) :
    (import_to_rds limit dir sink ledger).1.sink.length ≤ limit := by
  simp only [import_to_rds]
  rw [if_neg (by omega : ¬ limit ≤ sink.length)]
  have htot := importLoop_total_le limit sink.length (get_local_parquet_files dir)
      ⟨sink, ledger, 0⟩ (by simp; omega)
  have hlen := importLoop_sink_length limit sink.length (get_local_parquet_files dir)
      ⟨sink, ledger, 0⟩ (by simp)
  omega

/-- Witness for C1 at the spec's end-to-end scenario: quota 5, three chunks
of 4, 3 and 3 rows over an empty sink and empty ledger. -/
theorem import_to_rds_quota_invariant_witness :
    (([] : List Row).length < 5)
    ∧ (∀ f ∈ [(⟨"chunk_1.parquet", some [1, 2, 3, 4], true⟩ : PFile),
        ⟨"chunk_2.parquet", some [5, 6, 7], true⟩,
        ⟨"chunk_3.parquet", some [8, 9, 10], true⟩], f.insertOk = true)
    ∧ (import_to_rds 5 [(⟨"chunk_1.parquet", some [1, 2, 3, 4], true⟩ : PFile),
        ⟨"chunk_2.parquet", some [5, 6, 7], true⟩,
        ⟨"chunk_3.parquet", some [8, 9, 10], true⟩] [] []).1.sink.length ≤ 5 :=
  ⟨by decide, by decide,
    import_to_rds_quota_invariant 5 [(⟨"chunk_1.parquet", some [1, 2, 3, 4], true⟩ : PFile),
        ⟨"chunk_2.parquet", some [5, 6, 7], true⟩,
        ⟨"chunk_3.parquet", some [8, 9, 10], true⟩] [] [] (by decide) (by decide)⟩

/-- Claim C2 (truncation correctness): at the point in the ingestion loop
where a not-yet-imported, readable, non-quota-exhausted chunk has more rows
than `remaining = row_limit - (current_rows + total_rows_inserted)`, exactly
the first `remaining` rows of the chunk (its prefix in on-disk order) are
handed to `insert_many` and appended to the sink, the rest are discarded,
the ledger records `remaining` rows for the file, and no further chunks are
processed: the loop stops with the quota-stop log line. -/
theorem import_truncation_step (limit current : Nat) (f : PFile) (rest : List PFile)
    (st : ImportState) (rows : List Row)
    (hq : current + st.totalInserted < limit)
    (hl : ledgerHas st.ledger f.name = false)
    (hr : f.readResult = some rows)
    (hbig : limit - (current + st.totalInserted) < rows.length)
    (hok : f.insertOk = true) :
    importLoop limit current (f :: rest) st
      = (⟨st.sink ++ rows.take (limit - (current + st.totalInserted)),
          update_import_manifest st.ledger f.name (limit - (current + st.totalInserted)),
          st.totalInserted + (limit - (current + st.totalInserted))⟩,
         [ImportEvent.insertCall f.name (rows.take (limit - (current + st.totalInserted))),
          ImportEvent.inserted f.name (limit - (current + st.totalInserted)),
          ImportEvent.quotaStop]) := by
  have hrem : 0 < limit - (current + st.totalInserted) := by omega
  have htake : (rows.take (limit - (current + st.totalInserted))).length
      = limit - (current + st.totalInserted) := by
    rw [List.length_take]; omega
  have htne : rows.take (limit - (current + st.totalInserted)) ≠ [] := by
    intro hh
    rw [hh] at htake
    simp only [List.length_nil] at htake
    omega
  have hre : rows ≠ [] := by
    intro h0
    rw [h0] at hbig
    simp only [List.length_nil] at hbig
    omega
  have hins : insert_many f.insertOk st.sink (rows.take (limit - (current + st.totalInserted)))
      = some (limit - (current + st.totalInserted),
              st.sink ++ rows.take (limit - (current + st.totalInserted))) := by
    simp [insert_many, List.isEmpty_iff, htne, hok, htake]
  simp only [importLoop]
  rw [if_neg (by omega : ¬ limit ≤ current + st.totalInserted), if_neg (by simp [hl]), hr]
  dsimp only
  rw [if_neg (fun hh => hre (List.isEmpty_iff.mp hh)), if_pos hbig, hins]
  dsimp only
  rw [if_pos (by omega : limit ≤ current + (st.totalInserted
      + (limit - (current + st.totalInserted))))]

/-- Witness for C2 at the spec's end-to-end scenario: quota 5, four rows
already inserted this run, the next chunk holds 3 rows, so exactly its
first row is inserted and the loop stops before the third chunk. -/
theorem import_truncation_step_witness :
    (0 + (⟨[1, 2, 3, 4], [], 4⟩ : ImportState).totalInserted < 5)
    ∧ ledgerHas (⟨[1, 2, 3, 4], [], 4⟩ : ImportState).ledger "chunk_2.parquet" = false
    ∧ (5 - (0 + (⟨[1, 2, 3, 4], [], 4⟩ : ImportState).totalInserted) < [5, 6, 7].length)
    ∧ importLoop 5 0
        [⟨"chunk_2.parquet", some [5, 6, 7], true⟩, ⟨"chunk_3.parquet", some [8, 9, 10], true⟩]
        ⟨[1, 2, 3, 4], [], 4⟩
      = (⟨[1, 2, 3, 4] ++ [5, 6, 7].take (5 - (0 + (⟨[1, 2, 3, 4], [], 4⟩ : ImportState).totalInserted)),
          update_import_manifest [] "chunk_2.parquet"
            (5 - (0 + (⟨[1, 2, 3, 4], [], 4⟩ : ImportState).totalInserted)),
          4 + (5 - (0 + (⟨[1, 2, 3, 4], [], 4⟩ : ImportState).totalInserted))⟩,
         [ImportEvent.insertCall "chunk_2.parquet"
            ([5, 6, 7].take (5 - (0 + (⟨[1, 2, 3, 4], [], 4⟩ : ImportState).totalInserted))),
          ImportEvent.inserted "chunk_2.parquet"
            (5 - (0 + (⟨[1, 2, 3, 4], [], 4⟩ : ImportState).totalInserted)),
          ImportEvent.quotaStop]) :=
  ⟨by decide, by decide, by decide,
    import_truncation_step 5 0 ⟨"chunk_2.parquet", some [5, 6, 7], true⟩
      [⟨"chunk_3.parquet", some [8, 9, 10], true⟩] ⟨[1, 2, 3, 4], [], 4⟩ [5, 6, 7]
      (by decide) (by decide) rfl (by decide) rfl⟩

/-- Claim C4 (ingestion idempotence): running `import_to_rds` a second time
over the same directory of parquet files, starting from the sink and ledger
the first run left behind (file contents, read outcomes and insert outcomes
unchanged), inserts zero additional rows: the second run returns the first
run's sink and ledger untouched with `total_rows_inserted = 0`. -/
theorem import_to_rds_idempotent (limit : Nat) (dir : List PFile)
    (sink : List Row) (ledger : List LedgerEntry) :
    (import_to_rds limit dir
        (import_to_rds limit dir sink ledger).1.sink
        (import_to_rds limit dir sink ledger).1.ledger).1
      = ⟨(import_to_rds limit dir sink ledger).1.sink,
         (import_to_rds limit dir sink ledger).1.ledger, 0⟩ := by
  generalize hst1 : (import_to_rds limit dir sink ledger).1 = st1
  simp only [import_to_rds]
  by_cases h2 : limit ≤ st1.sink.length
  · rw [if_pos h2]
  rw [if_neg h2]
  apply importLoop_skip_all
  intro f hf
  simp only [import_to_rds] at hst1
  by_cases h1 : limit ≤ sink.length
  · rw [if_pos h1] at hst1
    exfalso
    apply h2
    rw [← hst1]
    exact h1
  rw [if_neg h1] at hst1
  have hpost := importLoop_post limit sink.length (get_local_parquet_files dir)
      ⟨sink, ledger, 0⟩ f hf
  have hsl := importLoop_sink_length limit sink.length (get_local_parquet_files dir)
      ⟨sink, ledger, 0⟩ (by simp)
  rw [hst1] at hpost hsl
  rcases hpost with h | h | h | h | h
  · exact Or.inl h
  · exact Or.inr (Or.inl h)
  · exact Or.inr (Or.inr (Or.inl h))
  · exact Or.inr (Or.inr (Or.inr h))
  · exfalso; apply h2; omega


/-- Claim C9 (ledger entry iff successful insert): for a chunk the loop
actually processes (quota not reached, not in the ledger, readable,
non-empty), (1) when `insert_many` succeeds the ledger gains an entry for
the file whose `rows_imported` is exactly the count inserted — the chunk
length capped by the remaining quota; (2) when `insert_many` raises, the
loop logs the failed call and continues over the remaining files from an
unchanged state: neither sink, ledger nor running total moves; (3) once a
file name is in the ledger (as a truncated file is, by (1)), no later run
starting from that ledger ever hands rows from it to `insert_many`. -/
theorem ledger_entry_iff_insert (limit current : Nat) (f : PFile) (rest : List PFile)
    (st : ImportState) (rows : List Row)
    (hq : current + st.totalInserted < limit)
    (hl : ledgerHas st.ledger f.name = false)
    (hr : f.readResult = some rows)
    (hne : rows ≠ []) :
    (f.insertOk = true →
      ledgerLookup ((importLoop limit current (f :: rest) st).1.ledger) f.name
        = some (min (limit - (current + st.totalInserted)) rows.length))
    ∧ (f.insertOk = false →
      importLoop limit current (f :: rest) st
        = ((importLoop limit current rest st).1,
           ImportEvent.insertCall f.name
               (if limit - (current + st.totalInserted) < rows.length
        then rows.take (limit - (current + st.totalInserted)) else rows)
             :: ImportEvent.insertError f.name :: (importLoop limit current rest st).2))
    ∧ (∀ (limit2 current2 : Nat) (files2 : List PFile) (st2 : ImportState),
        ledgerHas st2.ledger f.name = true →
        ∀ rs : List Row,
          ImportEvent.insertCall f.name rs ∉ (importLoop limit2 current2 files2 st2).2) := by
  have hrem : 0 < limit - (current + st.totalInserted) := by omega
  have hrl : 0 < rows.length := List.length_pos.mpr hne
  have htne : (if limit - (current + st.totalInserted) < rows.length
        then rows.take (limit - (current + st.totalInserted)) else rows) ≠ [] := by
    split
    · intro hh
      have hlt := congrArg List.length hh
      rw [List.length_take] at hlt
      simp only [List.length_nil] at hlt
      omega
    · exact hne
  refine ⟨fun hok => ?_, fun hnok => ?_,
    fun l2 c2 fs2 st2 hh rs => importLoop_no_insert_of_ledgered l2 c2 fs2 st2 f.name hh rs⟩
  · have hins : insert_many f.insertOk st.sink
        (if limit - (current + st.totalInserted) < rows.length
        then rows.take (limit - (current + st.totalInserted)) else rows)
        = some (((if limit - (current + st.totalInserted) < rows.length
        then rows.take (limit - (current + st.totalInserted)) else rows)).length,
            st.sink ++ (if limit - (current + st.totalInserted) < rows.length
        then rows.take (limit - (current + st.totalInserted)) else rows)) := by
      rw [hok]; simp [insert_many, List.isEmpty_iff, htne]
    have hmin : ((if limit - (current + st.totalInserted) < rows.length
        then rows.take (limit - (current + st.totalInserted)) else rows)).length
        = min (limit - (current + st.totalInserted)) rows.length := by
      split
      · rw [List.length_take]
      · rename_i hnb; omega
    simp only [importLoop]
    rw [if_neg (by omega : ¬ limit ≤ current + st.totalInserted), if_neg (by simp [hl]), hr]
    dsimp only
    rw [if_neg (fun hh => hne (List.isEmpty_iff.mp hh)), hins]
    dsimp only
    by_cases hq2 : limit ≤ current + (st.totalInserted
        + ((if limit - (current + st.totalInserted) < rows.length
        then rows.take (limit - (current + st.totalInserted)) else rows)).length)
    · rw [if_pos hq2]
      dsimp only
      rw [ledgerLookup_update_self, hmin]
    · rw [if_neg hq2]
      dsimp only
      rw [← hmin]
      exact importLoop_lookup_mono limit current rest _ f.name _
        (ledgerLookup_update_self st.ledger f.name _)
  · have hins : insert_many f.insertOk st.sink
        (if limit - (current + st.totalInserted) < rows.length
        then rows.take (limit - (current + st.totalInserted)) else rows) = none := by
      rw [hnok]; simp [insert_many, List.isEmpty_iff, htne]
    simp only [importLoop]
    rw [if_neg (by omega : ¬ limit ≤ current + st.totalInserted), if_neg (by simp [hl]), hr]
    dsimp only
    rw [if_neg (fun hh => hne (List.isEmpty_iff.mp hh)), hins]

/-- Witness for C9: quota 10, an empty run state, a readable two-row chunk
whose insert succeeds. -/
theorem ledger_entry_iff_insert_witness :
    ((0 : Nat) + (0 : Nat) < 10)
    ∧ ledgerHas [] "a.parquet" = false
    ∧ (((⟨"a.parquet", some [1, 2], true⟩ : PFile).insertOk = true →
        ledgerLookup ((importLoop 10 0 [⟨"a.parquet", some [1, 2], true⟩]
            ⟨[], [], 0⟩).1.ledger) "a.parquet"
          = some (min (10 - (0 + 0)) [1, 2].length))
      ∧ ((⟨"a.parquet", some [1, 2], true⟩ : PFile).insertOk = false →
        importLoop 10 0 [⟨"a.parquet", some [1, 2], true⟩] ⟨[], [], 0⟩
          = ((importLoop 10 0 [] ⟨[], [], 0⟩).1,
             ImportEvent.insertCall "a.parquet"
                 (if 10 - (0 + 0) < [1, 2].length then [1, 2].take (10 - (0 + 0)) else [1, 2])
               :: ImportEvent.insertError "a.parquet"
               :: (importLoop 10 0 [] ⟨[], [], 0⟩).2))
      ∧ (∀ (limit2 current2 : Nat) (files2 : List PFile) (st2 : ImportState),
          ledgerHas st2.ledger "a.parquet" = true →
          ∀ rs : List Row,
            ImportEvent.insertCall "a.parquet" rs ∉ (importLoop limit2 current2 files2 st2).2)) :=
  ⟨by decide, by decide,
    ledger_entry_iff_insert 10 0 ⟨"a.parquet", some [1, 2], true⟩ [] ⟨[], [], 0⟩ [1, 2]
      (by decide) (by decide) rfl (by decide)⟩

/-- Claim C10 (empty-chunk no-op): a readable parquet file with zero rows is
skipped with the empty-file warning — the loop state handed to the remaining
files is unchanged, so neither the sink, the ledger nor the running total
moves and no `insert_many` call is made for it; independently, `insert_many`
on an empty row sequence returns 0 and leaves the sink unchanged. -/
theorem empty_chunk_noop (limit current : Nat) (f : PFile) (rest : List PFile)
    (st : ImportState)
    (hq : current + st.totalInserted < limit)
    (hl : ledgerHas st.ledger f.name = false)
    (hr : f.readResult = some ([] : List Row)) :
    (importLoop limit current (f :: rest) st
       = ((importLoop limit current rest st).1,
          ImportEvent.emptySkip f.name :: (importLoop limit current rest st).2))
    ∧ (∀ (ok : Bool) (sink : List Row), insert_many ok sink [] = some (0, sink)) := by
  constructor
  · simp only [importLoop]
    rw [if_neg (by omega : ¬ limit ≤ current + st.totalInserted), if_neg (by simp [hl]), hr]
    dsimp only
    rw [if_pos (by rfl : ([] : List Row).isEmpty = true)]
  · intro ok sink
    simp [insert_many]

/-- Witness for C10: a zero-row chunk ahead of a non-empty one. -/
theorem empty_chunk_noop_witness :
    ((0 : Nat) + (0 : Nat) < 7)
    ∧ ledgerHas [] "empty.parquet" = false
    ∧ (importLoop 7 0 [⟨"empty.parquet", some [], true⟩, ⟨"b.parquet", some [9], true⟩]
          ⟨[], [], 0⟩
        = ((importLoop 7 0 [⟨"b.parquet", some [9], true⟩] ⟨[], [], 0⟩).1,
           ImportEvent.emptySkip "empty.parquet"
             :: (importLoop 7 0 [⟨"b.parquet", some [9], true⟩] ⟨[], [], 0⟩).2))
    ∧ (∀ (ok : Bool) (sink : List Row), insert_many ok sink [] = some (0, sink)) :=
  ⟨by decide, by decide,
    empty_chunk_noop 7 0 ⟨"empty.parquet", some [], true⟩
      [⟨"b.parquet", some [9], true⟩] ⟨[], [], 0⟩ (by decide) (by decide) rfl⟩


/-! ### The partition planner -/

/-- Sum of the planned chunk sizes for the `k` workers starting at worker
index `i`. -/
def seg_sum (base rem : Nat) : Nat → Nat → Nat
  | _, 0 => 0
  | i, k + 1 => (base + if i < rem then 1 else 0) + seg_sum base rem (i + 1) k

theorem build_chunks_length (base rem : Nat) :
    ∀ (k i s : Nat), (build_chunks base rem i s k).length = k := by
  intro k
  induction k with
  | zero => intro i s; rfl
  | succ k ih => intro i s; simp [build_chunks, ih]

theorem seg_sum_eval (base rem : Nat) :
    ∀ (k i : Nat), seg_sum base rem i k = base * k + (min rem (i + k) - min rem i) := by
  intro k
  induction k with
  | zero => intro i; simp [seg_sum]
  | succ k ih =>
    intro i
    rw [seg_sum, ih (i + 1), Nat.mul_succ]
    split
    · rename_i h; omega
    · rename_i h; omega

theorem build_chunks_getElem (base rem : Nat) :
    ∀ (k i s j : Nat), j < k →
      (build_chunks base rem i s k)[j]?
        = some (s + seg_sum base rem i j, base + if i + j < rem then 1 else 0) := by
  intro k
  induction k with
  | zero => intro i s j hj; exact absurd hj (Nat.not_lt_zero j)
  | succ k ih =>
    intro i s j hj
    cases j with
    | zero => simp [build_chunks, seg_sum]
    | succ j =>
      have hrec := ih (i + 1) (s + (base + if i < rem then 1 else 0)) j (by omega)
      have hadd : i + (j + 1) = i + 1 + j := by omega
      simp only [build_chunks, List.getElem?_cons_succ, hrec, seg_sum, hadd, Nat.add_assoc]

theorem build_chunks_flatten (base rem : Nat) :
    ∀ (k i s : Nat),
      ((build_chunks base rem i s k).map fun p => List.range' p.1 p.2).flatten
        = List.range' s (seg_sum base rem i k) := by
  intro k
  induction k with
  | zero => intro i s; simp [build_chunks, seg_sum]
  | succ k ih =>
    intro i s
    simp only [build_chunks, List.map_cons, List.flatten_cons, ih, seg_sum]
    rw [List.range'_append_1, Nat.add_comm]

theorem seg_sum_all (t w : Nat) (hw : 1 ≤ w) :
    seg_sum (t / w) (t % w) 0 w = t := by
  rw [seg_sum_eval]
  have hmod : t % w < w := Nat.mod_lt t (by omega)
  have hdm : w * (t / w) + t % w = t := Nat.div_add_mod t w
  rw [Nat.mul_comm (t / w) w]
  set p := w * (t / w) with hp
  set r := t % w with hr
  omega


/-- Claim C3 (PartitionPlanner correctness): for every `total_rows ≥ 0` and
`worker_count ≥ 1` the plan of `generate_data_parallel` yields exactly
`worker_count` chunks; concatenating their ID ranges in order gives exactly
the IDs `1, 2, …, total_rows` (so the ranges are contiguous, non-overlapping
and cover `[1, total_rows]` with no gaps); the `j`-th chunk holds
`total_rows / worker_count` rows plus one extra exactly when
`j < total_rows mod worker_count`; any two chunk sizes differ by at most 1;
and when `total_rows = 0` every chunk is empty. The plan is a pure function
of its two inputs, hence deterministic. -/
theorem generate_data_parallel_plan_spec (t w : Nat) (hw : 1 ≤ w) :
    (generate_data_parallel_plan t w).length = w
    ∧ ((generate_data_parallel_plan t w).map fun p => List.range' p.1 p.2).flatten
        = List.range' 1 t
    ∧ (∀ j, j < w →
        ((generate_data_parallel_plan t w).map Prod.snd)[j]?
          = some (t / w + if j < t % w then 1 else 0))
    ∧ (∀ j k, j < w → k < w → ∀ a b,
        ((generate_data_parallel_plan t w).map Prod.snd)[j]? = some a →
        ((generate_data_parallel_plan t w).map Prod.snd)[k]? = some b → a ≤ b + 1)
    ∧ (t = 0 → ∀ p ∈ generate_data_parallel_plan t w, p.2 = 0) := by
  have hlen : (generate_data_parallel_plan t w).length = w :=
    build_chunks_length _ _ w 0 1
  have hsz : ∀ j, j < w →
      ((generate_data_parallel_plan t w).map Prod.snd)[j]?
        = some (t / w + if j < t % w then 1 else 0) := by
    intro j hj
    rw [List.getElem?_map]
    unfold generate_data_parallel_plan
    rw [build_chunks_getElem _ _ w 0 1 j hj]
    simp
  refine ⟨hlen, ?_, hsz, ?_, ?_⟩
  · unfold generate_data_parallel_plan
    rw [build_chunks_flatten, seg_sum_all t w hw]
  · intro j k hj hk a b ha hb
    rw [hsz j hj] at ha
    rw [hsz k hk] at hb
    injection ha with ha
    injection hb with hb
    have h1 : a ≤ t / w + 1 ∧ t / w ≤ a := by
      rw [← ha]; split <;> omega
    have h2 : b ≤ t / w + 1 ∧ t / w ≤ b := by
      rw [← hb]; split <;> omega
    omega
  · intro ht p hp
    subst ht
    have hz : ∀ (k i s : Nat) (q : Nat × Nat), q ∈ build_chunks 0 0 i s k → q.2 = 0 := by
      intro k
      induction k with
      | zero => intro i s q hq; cases hq
      | succ k ih =>
        intro i s q hq
        rcases List.mem_cons.mp hq with rfl | hq'
        · simp
        · exact ih _ _ q hq'
    apply hz w 0 1
    unfold generate_data_parallel_plan at hp
    rw [Nat.zero_div, Nat.zero_mod] at hp
    exact hp

/-- Witness for C3 at the spec's end-to-end scenario: 10 rows over 3
workers give partitions of sizes 4, 3, 3 starting at IDs 1, 5, 8. -/
theorem generate_data_parallel_plan_spec_witness :
    ((1 : Nat) ≤ 3)
    ∧ ((generate_data_parallel_plan 10 3).length = 3
      ∧ ((generate_data_parallel_plan 10 3).map fun p => List.range' p.1 p.2).flatten
          = List.range' 1 10
      ∧ (∀ j, j < 3 →
          ((generate_data_parallel_plan 10 3).map Prod.snd)[j]?
            = some (10 / 3 + if j < 10 % 3 then 1 else 0))
      ∧ (∀ j k, j < 3 → k < 3 → ∀ a b,
          ((generate_data_parallel_plan 10 3).map Prod.snd)[j]? = some a →
          ((generate_data_parallel_plan 10 3).map Prod.snd)[k]? = some b → a ≤ b + 1)
      ∧ ((10 : Nat) = 0 → ∀ p ∈ generate_data_parallel_plan 10 3, p.2 = 0)) :=
  ⟨by decide, generate_data_parallel_plan_spec 10 3 (by decide)⟩


/-! ### Order facts for the two sort keys -/

theorem charListLe_total : ∀ x y : List Char, charListLe x y = true ∨ charListLe y x = true := by
  intro x
  induction x with
  | nil => intro y; left; rfl
  | cons a as ih =>
    intro y
    cases y with
    | nil => right; rfl
    | cons b bs =>
      by_cases hab : a = b
      · subst hab
        rcases ih bs with h | h
        · left; simp [charListLe, h]
        · right; simp [charListLe, h]
      · rcases lt_or_gt_of_ne hab with h | h
        · left; simp [charListLe, hab, h]
        · right; simp [charListLe, Ne.symm hab, h]

theorem charListLe_trans : ∀ x y z : List Char,
    charListLe x y = true → charListLe y z = true → charListLe x z = true := by
  intro x
  induction x with
  | nil => intro y z h1 h2; rfl
  | cons a as ih =>
    intro y z h1 h2
    cases y with
    | nil => exact absurd h1 (by simp [charListLe])
    | cons b bs =>
      cases z with
      | nil => exact absurd h2 (by simp [charListLe])
      | cons c cs =>
        simp only [charListLe] at h1 h2 ⊢
        by_cases hab : a = b
        · rw [if_pos hab] at h1
          by_cases hbc : b = c
          · rw [if_pos hbc] at h2
            rw [if_pos (hab.trans hbc)]
            exact ih bs cs h1 h2
          · rw [if_neg hbc] at h2
            have hlt : b < c := of_decide_eq_true h2
            have hac : a ≠ c := by rw [hab]; exact ne_of_lt hlt
            rw [if_neg hac]
            exact decide_eq_true (by rw [hab]; exact hlt)
        · rw [if_neg hab] at h1
          have hlt1 : a < b := of_decide_eq_true h1
          by_cases hbc : b = c
          · have hac : a ≠ c := by rw [← hbc]; exact ne_of_lt hlt1
            rw [if_neg hac]
            exact decide_eq_true (by rw [← hbc]; exact hlt1)
          · rw [if_neg hbc] at h2
            have hlt2 : b < c := of_decide_eq_true h2
            have hlt : a < c := lt_trans hlt1 hlt2
            rw [if_neg (ne_of_lt hlt)]
            exact decide_eq_true hlt

instance : IsTotal PFile pfileLe :=
  ⟨fun a b => charListLe_total a.name.data b.name.data⟩

instance : IsTrans PFile pfileLe :=
  ⟨fun a b c h1 h2 => charListLe_trans a.name.data b.name.data c.name.data h1 h2⟩

instance : IsTotal DirFile mtimeLe :=
  ⟨fun a b => Nat.le_total a.mtime b.mtime⟩

instance : IsTrans DirFile mtimeLe :=
  ⟨fun _ _ _ h1 h2 => Nat.le_trans h1 h2⟩

/-- Modelled from the spec (the relational ingestion path of the source
reads no manifest, so the order Claim C5 asserts exists only in the spec):
the processing order the claim demands — the chunk names of a resolved
stage manifest, in manifest order. -/
def specManifestOrder (manifest : List SManifestEntry) : List String :=
  manifest.map SManifestEntry.parquet_file

/-- Counterexample for C5: the converter names its outputs
`converted_chunk_{idx}_{timestamp}.parquet` and lists them in the manifest
in ascending chunk order, but `import_to_rds` ignores the manifest and
globs the directory sorted by file name, where `chunk_10` sorts before
`chunk_2`. With the directory holding exactly the two manifest files, the
processed order differs from the manifest order even though the file sets
agree, and with quota 1 the first claim on the quota goes to chunk 10's
row, not the manifest-first chunk 2's. -/
theorem manifest_order_counterexample :
    ((get_local_parquet_files
        [⟨"converted_chunk_2_20240101_000000.parquet", some [2], true⟩,
         ⟨"converted_chunk_10_20240101_000000.parquet", some [10], true⟩]).map PFile.name
      ≠ specManifestOrder
          [⟨"converted_chunk_2_20240101_000000.parquet", 1, 1⟩,
           ⟨"converted_chunk_10_20240101_000000.parquet", 1, 1⟩])
    ∧ ((get_local_parquet_files
        [⟨"converted_chunk_2_20240101_000000.parquet", some [2], true⟩,
         ⟨"converted_chunk_10_20240101_000000.parquet", some [10], true⟩]).map PFile.name).Perm
        (specManifestOrder
          [⟨"converted_chunk_2_20240101_000000.parquet", 1, 1⟩,
           ⟨"converted_chunk_10_20240101_000000.parquet", 1, 1⟩])
    ∧ (import_to_rds 1
        [⟨"converted_chunk_2_20240101_000000.parquet", some [2], true⟩,
         ⟨"converted_chunk_10_20240101_000000.parquet", some [10], true⟩] [] []).1.sink
      = [10] := by
  refine ⟨by decide, by decide, by decide⟩

/-- Claim C5 as amended: the relational ingestion path does not consume the
stage manifest at all; it enumerates every `*.parquet` file of the input
directory and processes them in ascending file-name order, so the
lexicographically first chunk — not the manifest-first chunk — gets first
claim on the remaining quota. -/
theorem ingestion_order_spec (limit : Nat) (dir : List PFile)
    (sink : List Row) (ledger : List LedgerEntry) :
    List.Sorted pfileLe (get_local_parquet_files dir)
    ∧ (get_local_parquet_files dir).Perm (dir.filter parquetGlob)
    ∧ import_to_rds limit dir sink ledger
        = (if limit ≤ sink.length then (⟨sink, ledger, 0⟩, [])
           else importLoop limit sink.length (get_local_parquet_files dir) ⟨sink, ledger, 0⟩) :=
  ⟨List.sorted_insertionSort pfileLe _, List.perm_insertionSort pfileLe _, rfl⟩


/-- Claim C6 (transfer partial-failure isolation and log soundness): the
transfer log of `upload_file_from_manifest` is exactly the manifest filtered
to the entries whose local artifact exists and whose upload succeeds — so a
missing or failing chunk is skipped without a log entry and without
aborting the rest; every log entry corresponds to an entry of the manifest
it was generated from; and a chunk whose artifact exists and whose upload
succeeds is logged even when other chunks before it failed. -/
theorem transfer_log_sound (pre : String) (onDisk uploadOk : String → Bool)
    (manifest : List SManifestEntry) :
    (upload_file_from_manifest pre onDisk uploadOk manifest
      = manifest.filterMap (fun e =>
          if onDisk e.parquet_file && uploadOk e.parquet_file then
            some ⟨e.parquet_file, makeS3Key pre e.parquet_file, e.rows, e.size_mb⟩
          else none))
    ∧ (∀ le ∈ upload_file_from_manifest pre onDisk uploadOk manifest,
        ∃ e ∈ manifest, le.file = e.parquet_file ∧ le.rows = e.rows
          ∧ le.size_mb = e.size_mb ∧ le.s3_key = makeS3Key pre e.parquet_file)
    ∧ (∀ e ∈ manifest, onDisk e.parquet_file = true → uploadOk e.parquet_file = true →
        (⟨e.parquet_file, makeS3Key pre e.parquet_file, e.rows, e.size_mb⟩ : UploadLogEntry)
          ∈ upload_file_from_manifest pre onDisk uploadOk manifest) := by
  have hfm : upload_file_from_manifest pre onDisk uploadOk manifest
      = manifest.filterMap (fun e =>
          if onDisk e.parquet_file && uploadOk e.parquet_file then
            some ⟨e.parquet_file, makeS3Key pre e.parquet_file, e.rows, e.size_mb⟩
          else none) := by
    induction manifest with
    | nil => rfl
    | cons e rest ih =>
      simp only [upload_file_from_manifest, List.filterMap_cons]
      by_cases hd : onDisk e.parquet_file
      · by_cases hu : uploadOk e.parquet_file
        · rw [if_neg (by simp [hd]), if_pos hu, ih]
          simp [hd, hu]
        · rw [if_neg (by simp [hd]), if_neg hu, ih]
          simp [hd, hu]
      · have hd2 : onDisk e.parquet_file = false := by simpa using hd
        rw [if_pos hd2, ih]
        simp [hd2]
  refine ⟨hfm, ?_, ?_⟩
  · intro le hle
    rw [hfm] at hle
    rcases List.mem_filterMap.mp hle with ⟨e, he, hee⟩
    by_cases hc : onDisk e.parquet_file && uploadOk e.parquet_file
    · rw [if_pos hc] at hee
      injection hee with hee
      subst hee
      exact ⟨e, he, rfl, rfl, rfl, rfl⟩
    · rw [if_neg hc] at hee
      cases hee
  · intro e he hd hu
    rw [hfm]
    exact List.mem_filterMap.mpr ⟨e, he, by simp [hd, hu]⟩

/-- Claim C7 (ledger-corruption tolerance): `load_import_manifest` is a
total function; when the ledger file exists but `json.load` (or building
the dict from it) raises, the exception is caught with a warning and the
empty mapping is returned — the same as when the file does not exist. -/
theorem ledger_corruption_tolerated :
    load_import_manifest (some none) = [] ∧ load_import_manifest none = [] :=
  ⟨rfl, rfl⟩

/-- A sorted list's last element is a maximum for the sort key. -/
theorem sorted_getLast?_max (l : List DirFile) (hs : List.Sorted mtimeLe l) :
    ∀ g, l.getLast? = some g → ∀ f ∈ l, f.mtime ≤ g.mtime := by
  induction l with
  | nil => intro g hg; cases hg
  | cons a t ih =>
    intro g hg f hf
    cases t with
    | nil =>
      rw [List.getLast?_singleton] at hg
      injection hg with hg
      rcases List.mem_singleton.mp hf with rfl
      rw [hg]
    | cons b t' =>
      rw [List.getLast?_cons_cons] at hg
      have hst : List.Sorted mtimeLe (b :: t') := (List.sorted_cons.mp hs).2
      rcases List.mem_cons.mp hf with rfl | hf'
      · have hgm : g ∈ b :: t' := List.mem_of_mem_getLast? (by rw [hg]; rfl)
        exact (List.sorted_cons.mp hs).1 g hgm
      · exact ih hst g hg f hf'

/-- Claim C8 (ManifestResolver contract): `get_latest_manifest` fails (the
raised `FileNotFoundError`, the spec's `ManifestNotFound`) exactly when no
file of the directory matches `*manifest_*.json`, and otherwise returns a
matching file of the directory whose modification time is greatest among
all matches. -/
theorem get_latest_manifest_spec (output_dir : List DirFile) :
    (get_latest_manifest output_dir = none
      ↔ ∀ f ∈ output_dir, manifestGlob f.name = false)
    ∧ (∀ g, get_latest_manifest output_dir = some g →
        g ∈ output_dir ∧ manifestGlob g.name = true
        ∧ ∀ f ∈ output_dir, manifestGlob f.name = true → f.mtime ≤ g.mtime) := by
  have hperm := List.perm_insertionSort mtimeLe
      (output_dir.filter fun f => manifestGlob f.name)
  have hsorted := List.sorted_insertionSort mtimeLe
      (output_dir.filter fun f => manifestGlob f.name)
  constructor
  · rw [get_latest_manifest, List.getLast?_eq_none_iff]
    constructor
    · intro hnil
      have hfil : output_dir.filter (fun f => manifestGlob f.name) = [] :=
        List.Perm.eq_nil ((hnil ▸ hperm).symm)
      intro f hf
      have := List.filter_eq_nil_iff.mp hfil f hf
      simpa using this
    · intro hall
      have hfil : output_dir.filter (fun f => manifestGlob f.name) = [] :=
        List.filter_eq_nil_iff.mpr (fun f hf => by simp [hall f hf])
      rw [hfil]
      rfl
  · intro g hg
    rw [get_latest_manifest] at hg
    have hmem : g ∈ List.insertionSort mtimeLe
        (output_dir.filter fun f => manifestGlob f.name) :=
      List.mem_of_mem_getLast? (by rw [hg]; rfl)
    have hmem2 : g ∈ output_dir.filter (fun f => manifestGlob f.name) :=
      hperm.mem_iff.mp hmem
    have hgd := List.mem_filter.mp hmem2
    refine ⟨hgd.1, hgd.2, ?_⟩
    intro f hf hfg
    have hfmem : f ∈ List.insertionSort mtimeLe
        (output_dir.filter fun f => manifestGlob f.name) :=
      hperm.mem_iff.mpr (List.mem_filter.mpr ⟨hf, hfg⟩)
    exact sorted_getLast?_max _ hsorted g hg f hfmem
